import Mathlib

/-!
Verification of the `ts_flattener` chunk-packing tool: a shallow embedding of
`ts_flattener.py` (file selection, priority ranking, the cosmetic
relative-specifier rewrite pass over import statements, greedy token-budget
packing, chunk writing and manifest construction), together with theorems
settling the frozen claims about the tool.

Modelling conventions:
* Pure path-string logic (`is_relevant_file`, `get_file_priority`) is
  embedded directly; `Path(...).resolve()` / `str(Path(...))` normalization
  is the identity on the already-normalized path strings considered.
* The regular-expression substitution in `process_imports` is embedded as an
  explicit backtracking matcher for the one pattern the source uses.
* The `flatten` pass is embedded as a fold over the discovered file list;
  file reads that raise are files whose `content` is `none`; the tokenizer is
  a parameter `est` (the source's primary tiktoken strategy is an external
  library; the fallback `len(text) // 4` is `estimate_tokens_fallback`);
  chunk-write failures are injected by a `writeFails` predicate on the
  sequence number of the write attempt.  Console output is ignored.
-/

set_option maxRecDepth 16384

namespace TsFlattener

/-! ### File selector and priority ranker -/

/-- Boolean substring test on strings (Python's `pat in s`), via the decidable
list-infix relation on the underlying character lists. -/
def strContains (s pat : String) : Bool := decide (pat.data <:+: s.data)

/-- Boolean suffix test on strings (Python's `s.endswith(pat)`). -/
def strEndsWith (s pat : String) : Bool := decide (pat.data <:+ s.data)

/-- Excluded directory names, from `is_relevant_file` in `ts_flattener.py`. -/
def excluded_dirs : List String :=
  ["node_modules", "build", "dist", ".next", ".git", ".cache"]

/-- Extension allow-list, from `is_relevant_file` in `ts_flattener.py`. -/
def allowed_extensions : List String :=
  [".ts", ".tsx", ".js", ".jsx", ".css", ".scss", ".json"]

/-- Embedding of `ProjectFlattener.is_relevant_file`.  The Python code first
normalizes the argument with `Path(file_path).resolve()` and
`str.replace(os.sep, '/')`; that resolution touches no rule, so the function
is defined directly over the already-normalized path string
(`normalized_path` in the source).  The three checks are translated verbatim:
excluded-directory segments (`/name/` infix or trailing `/name`), the
extension allow-list, and the test-suffix exclusion. -/
def is_relevant_file (normalized_path : String) : Bool :=
  if excluded_dirs.any (fun e =>
      strContains normalized_path ("/" ++ e ++ "/")
        || strEndsWith normalized_path ("/" ++ e)) then
    false
  else if !(allowed_extensions.any (fun ext => strEndsWith normalized_path ext)) then
    false
  else if strEndsWith normalized_path ".test.ts"
      || strEndsWith normalized_path ".test.tsx" then
    false
  else
    true

/-- The fixed fallback priority table of `get_file_priority`, in the
iteration order of the Python dict literal. -/
def priority_table : List (String × Nat) :=
  [("components", 1), ("pages", 2), ("features", 3),
   ("utils", 4), ("types", 5), ("styles", 6)]

/-- Embedding of `ProjectFlattener.get_file_priority`.  The Python code
normalizes with `str(Path(file_path))` and separator replacement, which is
the identity on the already-normalized path strings considered here.  It
returns 0 when any configured prioritize substring occurs in the path,
otherwise the value of the first table entry whose `/name/` form occurs in
the path (the `for` loop over the dict), otherwise 99. -/
def get_file_priority (prioritize_paths : List String) (normalized_path : String) : Nat :=
  if prioritize_paths.any (fun p => strContains normalized_path p) then 0
  else
    match priority_table.find? (fun kv => strContains normalized_path ("/" ++ kv.1 ++ "/")) with
    | some kv => kv.2
    | none => 99

/-! ### The import-rewriting pass

`process_imports` applies `re.sub` with the pattern
`(import.*from\s+['"])(.[^'"]*)(['"])` and a replacement function.  The
pattern is embedded as an explicit backtracking matcher:
* `litM` matches a literal;
* `wsQuoteSpec` matches `\s+['"]` followed by group 2 (`.[^'"]*`, one
  non-newline character then a maximal quote-free run) and the closing
  quote — after the opening quote these greedy pieces are deterministic;
* `dotStarLoop` implements the greedy `.*` by trying the longest
  non-newline run first and backtracking downward;
* `matchImportAt` anchors the whole pattern at the head of its input and
  yields the number of characters consumed after the literal `import`
  together with group 2 (the module specifier);
* `subImports` is `re.sub`: it scans left to right, replaces each
  (non-overlapping) match using the source's replacement function, and
  copies everything else unchanged. -/

/-- Whitespace test for the pattern's `\s` (the whitespace characters that
can occur in the inputs considered). -/
def isWsChar (c : Char) : Bool :=
  c = ' ' || c = '\t' || c = '\n' || c = '\r' || c = '\x0b' || c = '\x0c'

/-- Quote test for the pattern's `['"]` character class. -/
def isQuoteChar (c : Char) : Bool := c = '\'' || c = '\"'

/-- Match a literal character sequence, returning the rest of the input. -/
def litM : List Char → List Char → Option (List Char)
  | [], s => some s
  | _ :: _, [] => none
  | p :: ps, c :: cs => if c = p then litM ps cs else none

/-- Match `\s+['"]` then group 2 (`.[^'"]*`) then the closing `['"]`;
returns (group 2, rest after the closing quote). -/
def wsQuoteSpec (s : List Char) : Option (List Char × List Char) :=
  let ws := s.takeWhile isWsChar
  let rest := s.dropWhile isWsChar
  if ws.isEmpty then none
  else
    match rest with
    | [] => none
    | q :: rest2 =>
      if isQuoteChar q then
        match rest2 with
        | [] => none
        | c :: rest3 =>
          if c = '\n' then none
          else
            let run := rest3.takeWhile (fun ch => !(isQuoteChar ch))
            let rest4 := rest3.dropWhile (fun ch => !(isQuoteChar ch))
            match rest4 with
            | [] => none
            | q2 :: rest5 => if isQuoteChar q2 then some (c :: run, rest5) else none
      else none

/-- One attempt of the tail of the pattern after `.*` has consumed `k`
characters: literal `from`, then `wsQuoteSpec`. -/
def attemptFrom (s1 : List Char) (k : Nat) : Option (List Char × List Char) :=
  match litM ['f', 'r', 'o', 'm'] (s1.drop k) with
  | none => none
  | some r1 => wsQuoteSpec r1

/-- Greedy `.*`: try the longest admissible run first, backtracking to
shorter runs on failure. -/
def dotStarLoop (s1 : List Char) : Nat → Option (List Char × List Char)
  | 0 => attemptFrom s1 0
  | k + 1 =>
    match attemptFrom s1 (k + 1) with
    | some r => some r
    | none => dotStarLoop s1 k

/-- Anchor the whole pattern at the head of `s`: literal `import`, greedy
`.*` over at most the maximal non-newline run, then the pattern tail.
Returns (characters consumed after the literal `import`, group 2); the full
match length is that count plus 6. -/
def matchImportAt (s : List Char) : Option (Nat × List Char) :=
  match litM ['i', 'm', 'p', 'o', 'r', 't'] s with
  | none => none
  | some s1 =>
    match dotStarLoop s1 ((s1.takeWhile (fun c => !(c == '\n'))).length) with
    | none => none
    | some (g2, rest) => some (s1.length - rest.length, g2)

/-- The replacement the source's `replace_import` builds for a match whose
specifier (group 2) starts with a dot: an echo comment containing the whole
matched statement, then a second comment naming the flattened form. -/
def replacementFor (g0 g2 : List Char) : List Char :=
  ("// Original import: ").data ++ g0
    ++ ("\n// Flattened version would be: import from '").data ++ g2 ++ ['\'']

/-- Embedding of `re.sub` with the source's pattern and replacement
function: scan left to right; at a match, emit the replacement when group 2
starts with `.` (otherwise the match itself, unchanged) and continue after
the match; otherwise copy one character and continue.  The recursion is
driven by a fuel argument so that the function reduces computationally; a
match always consumes at least the six characters of the literal, so one
unit of fuel per input character always suffices and the fuel-exhausted
branch (which returns the rest unchanged) is never taken from
`subImports`. -/
def subImportsF : Nat → List Char → List Char
  | 0, s => s
  | _ + 1, [] => []
  | fuel + 1, c :: cs =>
    match matchImportAt (c :: cs) with
    | some (k, g2) =>
      (if g2.head? = some '.' then replacementFor ((c :: cs).take (6 + k)) g2
       else (c :: cs).take (6 + k)) ++ subImportsF fuel ((c :: cs).drop (6 + k))
    | none => c :: subImportsF fuel cs

/-- The scan of `re.sub`, with enough fuel for the whole input. -/
def subImports (s : List Char) : List Char := subImportsF s.length s

/-- Embedding of `ProjectFlattener.process_imports`. -/
def process_imports (content : String) : String := String.mk (subImports content.data)

/-- Scan for a pattern match anywhere in the input (used to state that
non-matching content is left unchanged). -/
def hasImportMatch : List Char → Bool
  | [] => false
  | c :: cs => (matchImportAt (c :: cs)).isSome || hasImportMatch cs

/-! ### The chunk packer, chunk writer and manifest builder -/

/-- One discovered file: its (absolute) path as discovered by the walk, its
path relative to the project root, and `some` file content — or `none` when
reading it raises. -/
structure FileInput where
  path : String
  relPath : String
  content : Option String
deriving DecidableEq

/-- The 80-character banner separator line used by `flatten`. -/
def hashes80 : String := String.mk (List.replicate 80 '#')

/-- The 80-character separator line used by `write_chunk`. -/
def equals80 : String := String.mk (List.replicate 80 '=')

/-- The source's fallback token estimate, `len(text) // 4`. -/
def estimate_tokens_fallback (text : String) : Nat := text.length / 4

/-- The annotated per-file content built in `flatten`: banner block plus the
processed content. -/
def annotatedContent (relPath processed : String) : String :=
  "\n\n" ++ hashes80 ++ "\n# File: " ++ relPath ++ "\n" ++ hashes80 ++ "\n\n" ++ processed

/-- The annotated content of a file input (for read failures the value is
irrelevant: such files are skipped before it is ever computed). -/
def fileContentOf (f : FileInput) : String :=
  annotatedContent f.relPath (process_imports (f.content.getD ""))

/-- Embedding of `ProjectFlattener.write_chunk`: the chunk artifact's text. -/
def write_chunk_text (chunk_file : String) (chunk_contents : List (String × String)) : String :=
  "# Chunk: " ++ chunk_file ++ "\n\n## Contained Files:\n"
    ++ String.join (chunk_contents.map (fun p => "- " ++ p.1 ++ "\n"))
    ++ "\n" ++ equals80 ++ "\n\n"
    ++ String.join (chunk_contents.map (fun p => p.2))

/-- The sequential chunk file names `chunk_<n>.txt`. -/
def chunkFileName (n : Nat) : String := "chunk_" ++ toString n ++ ".txt"

/-- The manifest structure written by `create_chunk_manifest`: project path,
total chunk count, and per chunk its file list and file count. -/
structure Manifest where
  project_path : String
  total_chunks : Nat
  chunks : List (String × List String × Nat)
deriving DecidableEq

/-- Embedding of `ProjectFlattener.create_chunk_manifest`. -/
def create_chunk_manifest (project_path : String) (chunks : List (String × List String)) : Manifest :=
  { project_path := project_path
    total_chunks := chunks.length
    chunks := chunks.map (fun e => (e.1, e.2, e.2.length)) }

/-- The loop state of `flatten`: the accumulator fields of the source
(`current_chunk`, `current_token_count`, `chunk_number`, `chunks`) plus the
observable effects (`disk`: successfully written chunk artifacts;
`flushed`: the successfully flushed chunks with their contents;
`writeAttempts` / `writeFailures`: how many chunk writes were attempted and
how many of them raised). -/
structure PackState where
  currentChunk : List (String × String)
  currentCount : Nat
  chunkNumber : Nat
  chunksAcc : List (String × List String)
  disk : List (String × String)
  flushed : List (List (String × String))
  writeAttempts : Nat
  writeFailures : Nat

/-- The loop state at entry of `flatten`'s loop. -/
def initState : PackState :=
  { currentChunk := [], currentCount := 0, chunkNumber := 1, chunksAcc := []
    disk := [], flushed := [], writeAttempts := 0, writeFailures := 0 }

/-- The per-file body of `flatten`'s loop.  A file whose read raises is
skipped.  Otherwise the annotated content and its token cost are computed;
when the running total would exceed the budget and the current chunk is
non-empty, the chunk is flushed first — and since `self.write_chunk` is
called inside the per-file `try`, a write that raises is caught by the same
handler that covers read errors: the rest of the body is skipped (the chunk
and the counters stay as they were, and the triggering file is dropped). -/
def processFile (tokens_per_file : Nat) (est : String → Nat) (writeFails : Nat → Bool)
    (st : PackState) (f : FileInput) : PackState :=
  match f.content with
  | none => st
  | some _ =>
    if tokens_per_file < st.currentCount + est (fileContentOf f) ∧ st.currentChunk ≠ [] then
      if writeFails st.writeAttempts then
        { st with writeAttempts := st.writeAttempts + 1
                  writeFailures := st.writeFailures + 1 }
      else
        { currentChunk := [(f.relPath, fileContentOf f)]
          currentCount := est (fileContentOf f)
          chunkNumber := st.chunkNumber + 1
          chunksAcc := st.chunksAcc
            ++ [(chunkFileName st.chunkNumber, st.currentChunk.map (fun e => e.1))]
          disk := st.disk
            ++ [(chunkFileName st.chunkNumber,
                 write_chunk_text (chunkFileName st.chunkNumber) st.currentChunk)]
          flushed := st.flushed ++ [st.currentChunk]
          writeAttempts := st.writeAttempts + 1
          writeFailures := st.writeFailures }
    else
      { st with
          currentChunk := st.currentChunk ++ [(f.relPath, fileContentOf f)]
          currentCount := st.currentCount + est (fileContentOf f) }

/-- The sort key used by `flatten`'s `all_files.sort(key=self.get_file_priority)`. -/
def priorityKey (prioritize_paths : List String) (f : FileInput) : Nat :=
  get_file_priority prioritize_paths f.path

/-- The selected file list after the priority sort.  Python's `list.sort` is
a stable ascending sort, which is modelled (extensionally exactly, since a
stable sort's output is unique) by insertion sort on the priority key. -/
def sortedFiles (prioritize_paths : List String) (all_files : List FileInput) : List FileInput :=
  List.insertionSort
    (fun a b => priorityKey prioritize_paths a ≤ priorityKey prioritize_paths b) all_files

/-- The observable outcome of a run of `flatten`: artifacts on disk, the
manifest (`none` when the run aborted before writing it), the `chunks`
mapping, the flushed chunks, whether the post-loop flush's write raised, and
how many chunk writes raised in total. -/
structure RunResult where
  disk : List (String × String)
  manifest : Option Manifest
  chunksAcc : List (String × List String)
  flushed : List (List (String × String))
  finalFlushFailed : Bool
  writeFailures : Nat

/-- The tail of `flatten` after its loop: flush the final non-empty chunk
(a write failure here propagates out of the loop: the run aborts with no
manifest), then build the manifest. -/
def finishRun (project_path : String) (writeFails : Nat → Bool) (st : PackState) : RunResult :=
  if st.currentChunk ≠ [] then
    if writeFails st.writeAttempts then
      { disk := st.disk, manifest := none, chunksAcc := st.chunksAcc
        flushed := st.flushed, finalFlushFailed := true
        writeFailures := st.writeFailures + 1 }
    else
      { disk := st.disk
          ++ [(chunkFileName st.chunkNumber,
               write_chunk_text (chunkFileName st.chunkNumber) st.currentChunk)]
        manifest := some (create_chunk_manifest project_path
          (st.chunksAcc ++ [(chunkFileName st.chunkNumber, st.currentChunk.map (fun e => e.1))]))
        chunksAcc := st.chunksAcc
          ++ [(chunkFileName st.chunkNumber, st.currentChunk.map (fun e => e.1))]
        flushed := st.flushed ++ [st.currentChunk]
        finalFlushFailed := false
        writeFailures := st.writeFailures }
  else
    { disk := st.disk, manifest := some (create_chunk_manifest project_path st.chunksAcc)
      chunksAcc := st.chunksAcc, flushed := st.flushed, finalFlushFailed := false
      writeFailures := st.writeFailures }

/-- Embedding of `ProjectFlattener.flatten`: sort the selected files by
priority, fold the loop body over them, then finish the run (final flush
and manifest). -/
def flatten (project_path : String) (all_files : List FileInput)
    (prioritize_paths : List String) (est : String → Nat)
    (tokens_per_file : Nat) (writeFails : Nat → Bool) : RunResult :=
  finishRun project_path writeFails
    ((sortedFiles prioritize_paths all_files).foldl
      (processFile tokens_per_file est writeFails) initState)

/-- The entries (relative path, annotated content) of the selected files
that were read successfully, in packing order. -/
def packedEntries (prioritize_paths : List String) (all_files : List FileInput) :
    List (String × String) :=
  ((sortedFiles prioritize_paths all_files).filter (fun f => f.content.isSome)).map
    (fun f => (f.relPath, fileContentOf f))

/-- Token cost of a chunk under an estimator: the sum of its entries'
content costs. -/
def sumTokens (est : String → Nat) (ch : List (String × String)) : Nat :=
  (ch.map (fun e => est e.2)).sum

/-- Loop invariant for the budget claims, on any run (also with write
failures): the source's `current_token_count` tracks the current chunk's
token sum; all but the last entry of the current chunk together cost at
most the budget; the same holds for every flushed chunk; and any entry
costing more than the budget alone sits alone in its chunk. -/
def budgetInv (est : String → Nat) (tokens_per_file : Nat) (st : PackState) : Prop :=
  st.currentCount = sumTokens est st.currentChunk
  ∧ (st.currentChunk ≠ [] → sumTokens est st.currentChunk.dropLast ≤ tokens_per_file)
  ∧ (∀ ch ∈ st.flushed, 2 ≤ ch.length → sumTokens est ch.dropLast ≤ tokens_per_file)
  ∧ (∀ ch ∈ st.flushed, ∀ e ∈ ch, tokens_per_file < est e.2 → ch = [e])
  ∧ (∀ e ∈ st.currentChunk, tokens_per_file < est e.2 → st.currentChunk = [e])

/-- Loop invariant for the structural claims on fault-free runs: the flushed
chunks followed by the current chunk hold exactly the read-ok processed
files' entries in order, and the `chunks` mapping mirrors the flushed
chunks' file lists. -/
def traceInv (processed : List FileInput) (st : PackState) : Prop :=
  st.flushed.flatten ++ st.currentChunk
    = (processed.filter (fun f => f.content.isSome)).map (fun f => (f.relPath, fileContentOf f))
  ∧ st.chunksAcc.map (fun e => e.2) = st.flushed.map (fun ch => ch.map (fun e => e.1))

/-- Disk invariant, on any run: each disk artifact is the chunk writer's
serialization of the corresponding flushed chunk. -/
def diskInv (st : PackState) : Prop :=
  List.Forall₂ (fun (d : String × String) ch => d.2 = write_chunk_text d.1 ch) st.disk st.flushed

/-! ### Concrete inputs used by witnesses and counterexamples -/

/-- A small readable file (annotated cost 44 tokens under the fallback
estimator). -/
def wFileA : FileInput := { path := "/p/A.ts", relPath := "A.ts", content := some "x" }

/-- A second small readable file (annotated cost 44 tokens). -/
def wFileB : FileInput := { path := "/p/B.ts", relPath := "B.ts", content := some "y" }

/-- A file whose read raises. -/
def wFileBad : FileInput := { path := "/p/bad.ts", relPath := "bad.ts", content := none }

/-- A run in which the first (mid-loop) chunk write raises and the final
flush succeeds. -/
def wRunMidFail : RunResult :=
  flatten "/p" [wFileA, wFileB] [] estimate_tokens_fallback 50 (fun n => n == 0)

/-- A run in which every chunk write raises; its only flush is the final one. -/
def wRunFinalFail : RunResult :=
  flatten "/p" [wFileA] [] estimate_tokens_fallback 50 (fun _ => true)

/-- A fault-free run packing two small files into one chunk, with one
unreadable file skipped. -/
def wRunOk : RunResult :=
  flatten "/p" [wFileA, wFileBad, wFileB] [] estimate_tokens_fallback 1000 (fun _ => false)

/-- A fault-free run of a single file whose cost (44) exceeds the budget (10). -/
def wRunBig : RunResult :=
  flatten "/p" [wFileA] [] estimate_tokens_fallback 10 (fun _ => false)

end TsFlattener

namespace TsFlattener

/-! ### Theorems: selector and ranker claims -/

theorem strContains_iff (s pat : String) : strContains s pat = true ↔ pat.data <:+: s.data := by
  simp [strContains]

theorem strEndsWith_iff (s pat : String) : strEndsWith s pat = true ↔ pat.data <:+ s.data := by
  simp [strEndsWith]

/-- Claim C6: `is_relevant_file` returns false when the path contains an
excluded directory as a `/name/` segment or trailing `/name` suffix; false
when no allow-listed extension is a suffix of the path; and false when the
path ends with `.test.ts` or `.test.tsx`. -/
theorem C6_is_relevant_file_rejections (p : String) :
    ((∃ e ∈ excluded_dirs,
        ("/" ++ e ++ "/").data <:+: p.data ∨ ("/" ++ e).data <:+ p.data) →
      is_relevant_file p = false)
    ∧ ((∀ ext ∈ allowed_extensions, ¬ (ext.data <:+ p.data)) →
      is_relevant_file p = false)
    ∧ ((".test.ts".data <:+ p.data ∨ ".test.tsx".data <:+ p.data) →
      is_relevant_file p = false) := by
  refine ⟨?_, ?_, ?_⟩
  · rintro ⟨e, he, hcase⟩
    have hany : excluded_dirs.any (fun e =>
        strContains p ("/" ++ e ++ "/") || strEndsWith p ("/" ++ e)) = true := by
      refine List.any_eq_true.mpr ⟨e, he, ?_⟩
      rcases hcase with h | h
      · exact Bool.or_eq_true_iff.mpr (Or.inl ((strContains_iff _ _).mpr h))
      · exact Bool.or_eq_true_iff.mpr (Or.inr ((strEndsWith_iff _ _).mpr h))
    simp [is_relevant_file, hany]
  · intro hext
    have hany : allowed_extensions.any (fun ext => strEndsWith p ext) = false := by
      refine List.any_eq_false.mpr ?_
      intro ext hm
      exact fun hb => hext ext hm ((strEndsWith_iff _ _).mp hb)
    by_cases hexc : excluded_dirs.any (fun e =>
        strContains p ("/" ++ e ++ "/") || strEndsWith p ("/" ++ e)) = true
    · simp [is_relevant_file, hexc]
    · simp [is_relevant_file, hexc, hany]
  · intro htest
    by_cases hexc : excluded_dirs.any (fun e =>
        strContains p ("/" ++ e ++ "/") || strEndsWith p ("/" ++ e)) = true
    · simp [is_relevant_file, hexc]
    · have hts : strEndsWith p ".test.ts" = true ∨ strEndsWith p ".test.tsx" = true := by
        rcases htest with h | h
        · exact Or.inl ((strEndsWith_iff _ _).mpr h)
        · exact Or.inr ((strEndsWith_iff _ _).mpr h)
      have hext : allowed_extensions.any (fun ext => strEndsWith p ext) = true := by
        rcases htest with h | h
        · refine List.any_eq_true.mpr ⟨".ts", by simp [allowed_extensions], ?_⟩
          exact (strEndsWith_iff _ _).mpr (List.IsSuffix.trans (by decide) h)
        · refine List.any_eq_true.mpr ⟨".tsx", by simp [allowed_extensions], ?_⟩
          exact (strEndsWith_iff _ _).mpr (List.IsSuffix.trans (by decide) h)
      rcases hts with h | h <;> simp [is_relevant_file, hexc, hext, h]

/-- Witness for C6, at concrete inputs exercising each rejection rule. -/
theorem C6_witness :
    is_relevant_file "/a/node_modules/b.ts" = false
    ∧ is_relevant_file "/a/b.md" = false
    ∧ is_relevant_file "/a/b.test.ts" = false :=
  ⟨(C6_is_relevant_file_rejections "/a/node_modules/b.ts").1
      ⟨"node_modules", by decide, by decide⟩,
   (C6_is_relevant_file_rejections "/a/b.md").2.1 (by decide),
   (C6_is_relevant_file_rejections "/a/b.test.ts").2.2 (Or.inl (by decide))⟩

/-- Claim C7: `get_file_priority` returns 0 when a configured prioritize
substring occurs in the path; its value is always in `[0, 99]`; on
`src/components/Foo.ts` it returns 1 with no prioritize list and 0 with
`prioritize_paths = ["src/components"]`. -/
theorem C7_get_file_priority (pp : List String) (p : String) :
    ((∃ s ∈ pp, s.data <:+: p.data) → get_file_priority pp p = 0)
    ∧ get_file_priority pp p ≤ 99
    ∧ get_file_priority [] "src/components/Foo.ts" = 1
    ∧ get_file_priority ["src/components"] "src/components/Foo.ts" = 0 := by
  refine ⟨?_, ?_, by decide, by decide⟩
  · rintro ⟨s, hs, hinf⟩
    have hany : pp.any (fun q => strContains p q) = true :=
      List.any_eq_true.mpr ⟨s, hs, (strContains_iff _ _).mpr hinf⟩
    simp [get_file_priority, hany]
  · unfold get_file_priority
    split
    · exact Nat.zero_le _
    · cases hfind : priority_table.find? (fun kv => strContains p ("/" ++ kv.1 ++ "/")) with
      | none => simp [hfind]
      | some kv =>
        have hmem := List.mem_of_find?_eq_some hfind
        have hkv : kv.2 ≤ 99 := by fin_cases hmem <;> decide
        simpa [hfind] using hkv

/-- Witness for C7, discharging the prioritize-substring hypothesis at a
concrete input. -/
theorem C7_witness : get_file_priority ["src/components"] "a/src/components/b.ts" = 0 :=
  (C7_get_file_priority ["src/components"] "a/src/components/b.ts").1
    ⟨"src/components", by decide, by decide⟩

/-- Claim C9: when `prioritize_paths` contains the empty string,
`get_file_priority` returns 0 on every path, because the empty string is a
substring of every string. -/
theorem C9_empty_prioritize (pp : List String) (p : String) (h : "" ∈ pp) :
    get_file_priority pp p = 0 := by
  have hany : pp.any (fun q => strContains p q) = true :=
    List.any_eq_true.mpr ⟨"", h, (strContains_iff _ _).mpr List.nil_infix⟩
  simp [get_file_priority, hany]

/-- Witness for C9 at a concrete path matched by no other rule. -/
theorem C9_witness : get_file_priority [""] "weird.xyz" = 0 :=
  C9_empty_prioritize [""] "weird.xyz" (by decide)

/-- Counterexample to C10 as stated: the claim quantifies over every relative
path whose first segment is a table directory name with no preceding
separator and asserts the result is 99, but `components/utils/a.ts` — whose
first segment `components` is a table name not preceded by a separator —
yields 4 (the `/utils/` table entry), not 99. -/
theorem C10_counterexample :
    get_file_priority [] "components/utils/a.ts" = 4
    ∧ ("components", 1) ∈ priority_table
    ∧ "components/".data <+: "components/utils/a.ts".data
    ∧ (4 : Nat) ≠ 99 := by
  refine ⟨by decide, by decide, by decide, by decide⟩

/-- Claim C10 (amended): `get_file_priority` matches fallback table names
only with a slash on both sides and does not make the input path absolute,
so with an empty prioritize list any path in which no table name occurs
between slashes returns 99 — in particular a leading table-name segment with
no preceding separator does not trigger its own table entry
(`components/Foo.ts` yields 99). -/
theorem C10_leading_segment_not_matched (p : String)
    (h : ∀ kv ∈ priority_table, ¬ (("/" ++ kv.1 ++ "/").data <:+: p.data)) :
    get_file_priority [] p = 99
    ∧ get_file_priority [] "components/Foo.ts" = 99 := by
  refine ⟨?_, by decide⟩
  have hfind : priority_table.find? (fun kv => strContains p ("/" ++ kv.1 ++ "/")) = none := by
    refine List.find?_eq_none.mpr ?_
    intro kv hm
    exact fun hb => h kv hm ((strContains_iff _ _).mp hb)
  simp [get_file_priority, hfind]

/-- Witness for C10's amended theorem at the claim's own example path. -/
theorem C10_witness : get_file_priority [] "components/Foo.ts" = 99 :=
  (C10_leading_segment_not_matched "components/Foo.ts" (by decide)).1

/-! ### Theorems: packer loop invariants -/

theorem budgetInv_init (est : String → Nat) (b : Nat) : budgetInv est b initState := by
  unfold budgetInv initState
  exact ⟨rfl, by simp, by simp, by simp, by simp⟩

theorem processFile_budgetInv (b : Nat) (est : String → Nat) (wf : Nat → Bool)
    (st : PackState) (f : FileInput) (h : budgetInv est b st) :
    budgetInv est b (processFile b est wf st f) := by
  obtain ⟨h1, h2, h3, h4, h5⟩ := h
  cases hc : f.content with
  | none => simpa [processFile, hc] using ⟨h1, h2, h3, h4, h5⟩
  | some raw =>
    by_cases hcond : b < st.currentCount + est (fileContentOf f) ∧ st.currentChunk ≠ []
    · by_cases hwf : wf st.writeAttempts = true
      · simp only [processFile, hc, if_pos hcond, if_pos hwf]
        exact ⟨h1, h2, h3, h4, h5⟩
      · simp only [processFile, hc, if_pos hcond, if_neg hwf]
        refine ⟨by simp [sumTokens], by simp [sumTokens], ?_, ?_, ?_⟩
        · intro ch hch
          rcases List.mem_append.mp hch with hm | hm
          · exact h3 ch hm
          · have hcur : ch = st.currentChunk := by simpa using hm
            subst hcur
            intro _
            exact h2 hcond.2
        · intro ch hch e he hov
          rcases List.mem_append.mp hch with hm | hm
          · exact h4 ch hm e he hov
          · have hcur : ch = st.currentChunk := by simpa using hm
            subst hcur
            exact h5 e he hov
        · intro e he hov
          have : e = (f.relPath, fileContentOf f) := by simpa using he
          subst this
          rfl
    · simp only [processFile, hc, if_neg hcond]
      by_cases hemp : st.currentChunk = []
      · have h1' : st.currentCount = 0 := by
          rw [h1, hemp]; simp [sumTokens]
        refine ⟨?_, ?_, h3, h4, ?_⟩
        · simp [hemp, sumTokens, h1']
        · intro _
          simp [hemp, sumTokens]
        · intro e he hov
          rw [hemp] at he ⊢
          have : e = (f.relPath, fileContentOf f) := by simpa using he
          subst this
          rfl
      · have hle : st.currentCount + est (fileContentOf f) ≤ b := by
          by_contra hgt
          exact hcond ⟨Nat.lt_of_not_le (fun hx => hgt (by omega)), hemp⟩
        refine ⟨?_, ?_, h3, h4, ?_⟩
        · simp [sumTokens, List.map_append, List.sum_append]
          rw [h1]
          simp [sumTokens]
        · intro _
          rw [List.dropLast_concat]
          have : sumTokens est st.currentChunk = st.currentCount := h1.symm
          omega
        · intro e he hov
          exfalso
          rcases List.mem_append.mp he with hm | hm
          · have hce := h5 e hm hov
            have : st.currentCount = est e.2 := by
              rw [h1, hce]; simp [sumTokens]
            omega
          · have : e = (f.relPath, fileContentOf f) := by simpa using hm
            subst this
            simp only at hov
            omega

theorem foldl_budgetInv (b : Nat) (est : String → Nat) (wf : Nat → Bool) :
    ∀ (fs : List FileInput) (st : PackState), budgetInv est b st →
      budgetInv est b (fs.foldl (processFile b est wf) st)
  | [], _, h => h
  | f :: fs, st, h =>
    foldl_budgetInv b est wf fs _ (processFile_budgetInv b est wf st f h)

theorem finishRun_flushed_budget (project : String) (wf : Nat → Bool)
    (est : String → Nat) (b : Nat) (st : PackState) (h : budgetInv est b st) :
    ∀ ch ∈ (finishRun project wf st).flushed,
      (2 ≤ ch.length → sumTokens est ch.dropLast ≤ b)
      ∧ (∀ e ∈ ch, b < est e.2 → ch = [e]) := by
  obtain ⟨h1, h2, h3, h4, h5⟩ := h
  intro ch hch
  unfold finishRun at hch
  by_cases hemp : st.currentChunk ≠ []
  · rw [if_pos hemp] at hch
    by_cases hwf : wf st.writeAttempts = true
    · rw [if_pos hwf] at hch
      exact ⟨h3 ch hch, h4 ch hch⟩
    · rw [if_neg hwf] at hch
      rcases List.mem_append.mp hch with hm | hm
      · exact ⟨h3 ch hm, h4 ch hm⟩
      · have hcur : ch = st.currentChunk := by simpa using hm
        subst hcur
        exact ⟨fun _ => h2 hemp, fun e he hov => h5 e he hov⟩
  · rw [if_neg hemp] at hch
    exact ⟨h3 ch hch, h4 ch hch⟩

theorem traceInv_init : traceInv [] initState := by
  unfold traceInv initState
  simp

theorem processFile_traceInv (b : Nat) (est : String → Nat)
    (st : PackState) (f : FileInput) (processed : List FileInput)
    (h : traceInv processed st) :
    traceInv (processed ++ [f]) (processFile b est (fun _ => false) st f) := by
  obtain ⟨h1, h2⟩ := h
  cases hc : f.content with
  | none =>
    refine ⟨?_, ?_⟩ <;> simp [processFile, hc, List.filter_append, h1, h2]
  | some raw =>
    by_cases hcond : b < st.currentCount + est (fileContentOf f) ∧ st.currentChunk ≠ []
    · have hwf : ¬ ((fun (_ : Nat) => false) st.writeAttempts = true) := by simp
      simp only [processFile, hc, if_pos hcond, if_neg hwf]
      refine ⟨?_, ?_⟩
      · simp only [List.flatten_append, List.flatten_cons, List.flatten_nil,
          List.append_nil, List.filter_append, List.map_append, List.append_assoc]
        rw [← List.append_assoc, h1]
        simp [hc]
      · simp [List.map_append, h2]
    · simp only [processFile, hc, if_neg hcond]
      refine ⟨?_, h2⟩
      simp only [List.filter_append, List.map_append]
      rw [← List.append_assoc, h1]
      simp [hc]

theorem foldl_traceInv (b : Nat) (est : String → Nat) :
    ∀ (fs : List FileInput) (st : PackState) (processed : List FileInput),
      traceInv processed st →
      traceInv (processed ++ fs) (fs.foldl (processFile b est (fun _ => false)) st)
  | [], _, _, h => by simpa using h
  | f :: fs, st, processed, h => by
    have hstep := processFile_traceInv b est st f processed h
    have := foldl_traceInv b est fs (processFile b est (fun _ => false) st f)
      (processed ++ [f]) hstep
    simpa using this

theorem finishRun_trace (project : String) (st : PackState) (processed : List FileInput)
    (h : traceInv processed st) :
    (finishRun project (fun _ => false) st).flushed.flatten
        = (processed.filter (fun f => f.content.isSome)).map (fun f => (f.relPath, fileContentOf f))
    ∧ (finishRun project (fun _ => false) st).chunksAcc.map (fun e => e.2)
        = (finishRun project (fun _ => false) st).flushed.map (fun ch => ch.map (fun e => e.1))
    ∧ (finishRun project (fun _ => false) st).manifest
        = some (create_chunk_manifest project (finishRun project (fun _ => false) st).chunksAcc) := by
  obtain ⟨h1, h2⟩ := h
  unfold finishRun
  by_cases hemp : st.currentChunk ≠ []
  · have hwf : ¬ ((fun (_ : Nat) => false) st.writeAttempts = true) := by simp
    rw [if_pos hemp, if_neg hwf]
    refine ⟨?_, ?_, rfl⟩
    · simp only [List.flatten_append, List.flatten_cons, List.flatten_nil, List.append_nil]
      exact h1
    · simp [List.map_append, h2]
  · rw [if_neg hemp]
    have hcur : st.currentChunk = [] := not_not.mp hemp
    refine ⟨?_, h2, rfl⟩
    rw [← h1, hcur]
    simp

theorem flatten_trace (project : String) (files : List FileInput) (pp : List String)
    (est : String → Nat) (b : Nat) :
    (flatten project files pp est b (fun _ => false)).flushed.flatten = packedEntries pp files
    ∧ (flatten project files pp est b (fun _ => false)).chunksAcc.map (fun e => e.2)
        = (flatten project files pp est b (fun _ => false)).flushed.map
            (fun ch => ch.map (fun e => e.1))
    ∧ (flatten project files pp est b (fun _ => false)).manifest
        = some (create_chunk_manifest project
            (flatten project files pp est b (fun _ => false)).chunksAcc) := by
  have h0 : traceInv ([] ++ sortedFiles pp files)
      ((sortedFiles pp files).foldl (processFile b est (fun _ => false)) initState) :=
    foldl_traceInv b est (sortedFiles pp files) initState [] traceInv_init
  rw [List.nil_append] at h0
  have hfin := finishRun_trace project _ (sortedFiles pp files) h0
  simpa [flatten, packedEntries] using hfin

theorem diskInv_init : diskInv initState := by
  unfold diskInv initState
  exact List.Forall₂.nil

theorem forall₂_append_single {α β : Type} {r : α → β → Prop} {as : List α} {bs : List β}
    (h : List.Forall₂ r as bs) {a : α} {b : β} (hab : r a b) :
    List.Forall₂ r (as ++ [a]) (bs ++ [b]) := by
  induction h with
  | nil => exact List.Forall₂.cons hab List.Forall₂.nil
  | cons h1 _ ih => exact List.Forall₂.cons h1 ih

theorem forall₂_exists_left {α β : Type} {r : α → β → Prop} {as : List α} {bs : List β}
    (h : List.Forall₂ r as bs) : ∀ b ∈ bs, ∃ a ∈ as, r a b := by
  induction h with
  | nil => intro b hb; simp at hb
  | cons h1 _ ih =>
    intro b hb
    rcases List.mem_cons.mp hb with rfl | hb'
    · exact ⟨_, List.mem_cons_self _ _, h1⟩
    · obtain ⟨a, ha, har⟩ := ih b hb'
      exact ⟨a, List.mem_cons_of_mem _ ha, har⟩

theorem processFile_diskInv (b : Nat) (est : String → Nat) (wf : Nat → Bool)
    (st : PackState) (f : FileInput) (h : diskInv st) :
    diskInv (processFile b est wf st f) := by
  unfold diskInv at h ⊢
  cases hc : f.content with
  | none => simpa [processFile, hc] using h
  | some raw =>
    by_cases hcond : b < st.currentCount + est (fileContentOf f) ∧ st.currentChunk ≠ []
    · by_cases hwf : wf st.writeAttempts = true
      · simpa [processFile, hc, if_pos hcond, hwf] using h
      · simp only [processFile, hc, if_pos hcond, if_neg hwf]
        exact forall₂_append_single h rfl
    · simpa [processFile, hc, if_neg hcond] using h

theorem foldl_diskInv (b : Nat) (est : String → Nat) (wf : Nat → Bool) :
    ∀ (fs : List FileInput) (st : PackState), diskInv st →
      diskInv (fs.foldl (processFile b est wf) st)
  | [], _, h => h
  | f :: fs, st, h =>
    foldl_diskInv b est wf fs _ (processFile_diskInv b est wf st f h)

theorem finishRun_diskInv (project : String) (wf : Nat → Bool) (st : PackState)
    (h : diskInv st) :
    List.Forall₂ (fun (d : String × String) ch => d.2 = write_chunk_text d.1 ch)
      (finishRun project wf st).disk (finishRun project wf st).flushed := by
  unfold diskInv at h
  unfold finishRun
  by_cases hemp : st.currentChunk ≠ []
  · rw [if_pos hemp]
    by_cases hwf : wf st.writeAttempts = true
    · simpa [hwf] using h
    · simp only [if_neg hwf]
      exact forall₂_append_single h rfl
  · rw [if_neg hemp]
    exact h

theorem flatten_diskInv (project : String) (files : List FileInput) (pp : List String)
    (est : String → Nat) (b : Nat) (wf : Nat → Bool) :
    List.Forall₂ (fun (d : String × String) ch => d.2 = write_chunk_text d.1 ch)
      (flatten project files pp est b wf).disk (flatten project files pp est b wf).flushed := by
  unfold flatten
  exact finishRun_diskInv project wf _
    (foldl_diskInv b est wf (sortedFiles pp files) initState diskInv_init)

theorem finishRun_manifest_iff (project : String) (wf : Nat → Bool) (st : PackState) :
    (finishRun project wf st).manifest = none
      ↔ (finishRun project wf st).finalFlushFailed = true := by
  unfold finishRun
  by_cases hemp : st.currentChunk ≠ []
  · rw [if_pos hemp]
    by_cases hwf : wf st.writeAttempts = true
    · simp [hwf]
    · simp [hwf]
  · rw [if_neg hemp]
    simp

/-- Claim C2 (amended): a chunk-write failure in the final post-loop flush
is fatal — it aborts the run with no manifest, and the chunks already
flushed remain on disk as written; conversely the manifest is missing only
in that case, because a chunk-write failure during a mid-loop flush is
caught by the per-file exception handler (intended for read errors), only
skips the triggering file, and lets the run complete with a manifest. -/
theorem C2_write_failure_behavior (project : String) (files : List FileInput)
    (pp : List String) (est : String → Nat) (b : Nat) (wf : Nat → Bool) :
    ((flatten project files pp est b wf).manifest = none
        ↔ (flatten project files pp est b wf).finalFlushFailed = true)
    ∧ ((flatten project files pp est b wf).finalFlushFailed = true →
        List.Forall₂ (fun (d : String × String) ch => d.2 = write_chunk_text d.1 ch)
          (flatten project files pp est b wf).disk
          (flatten project files pp est b wf).flushed) := by
  constructor
  · unfold flatten
    exact finishRun_manifest_iff project wf _
  · intro _
    exact flatten_diskInv project files pp est b wf

/-- Witness for the amended C2: a run whose only flush is the final one and
whose writes all fail; it aborts, and the (empty) set of flushed chunks is
exactly what is on disk. -/
theorem C2_witness :
    List.Forall₂ (fun (d : String × String) ch => d.2 = write_chunk_text d.1 ch)
      wRunFinalFail.disk wRunFinalFail.flushed :=
  (C2_write_failure_behavior "/p" [wFileA] [] estimate_tokens_fallback 50 (fun _ => true)).2
    (by decide)

/-- Counterexample to C2 as stated: a run in which a chunk write raises
(mid-loop, while flushing before a file that overflows the budget) and yet
a manifest is produced — the failure is caught by the per-file handler, so
it is not fatal and does not abort the run. -/
theorem C2_counterexample :
    1 ≤ wRunMidFail.writeFailures ∧ wRunMidFail.manifest.isSome = true :=
  ⟨by decide, by decide⟩

/-- Stability of `orderedInsert` under key-equality filtering: inserting
`x` prepends it to the equal-key sublist when its key matches, and leaves
that sublist unchanged otherwise. -/
theorem orderedInsert_filter_key {α : Type} (key : α → Nat) (k : Nat) (x : α) :
    ∀ l : List α,
      (List.orderedInsert (fun a b => key a ≤ key b) x l).filter
          (fun y => decide (key y = k))
        = if key x = k
          then x :: l.filter (fun y => decide (key y = k))
          else l.filter (fun y => decide (key y = k))
  | [] => by
    by_cases hk : key x = k <;> simp [List.orderedInsert, hk]
  | y :: l => by
    by_cases hxy : key x ≤ key y
    · simp only [List.orderedInsert, if_pos hxy]
      by_cases hk : key x = k <;> simp [List.filter_cons, hk]
    · simp only [List.orderedInsert, if_neg hxy]
      rw [List.filter_cons, List.filter_cons, orderedInsert_filter_key key k x l]
      by_cases hk : key x = k
      · have hyk : ¬ (key y = k) := by
          intro he
          exact hxy (by omega)
        simp [hk, hyk]
      · simp [hk]

/-- Stability of insertion sort under key-equality filtering: the sorted
list restricted to any one key value is the original list so restricted. -/
theorem insertionSort_filter_key {α : Type} (key : α → Nat) (k : Nat) :
    ∀ l : List α,
      (List.insertionSort (fun a b => key a ≤ key b) l).filter
          (fun y => decide (key y = k))
        = l.filter (fun y => decide (key y = k))
  | [] => rfl
  | x :: l => by
    simp only [List.insertionSort]
    rw [orderedInsert_filter_key, insertionSort_filter_key key k l]
    by_cases hk : key x = k <;> simp [List.filter_cons, hk]

/-- Claim C8: the packed output lists the read-ok files in sorted order, and
the sort is stable — restricted to any one priority value, the sorted file
list is the discovery-ordered file list so restricted, so files sharing a
priority appear in the packed output in their discovery order. -/
theorem C8_stable_priority_order (project : String) (files : List FileInput)
    (pp : List String) (est : String → Nat) (b : Nat) (k : Nat) :
    (flatten project files pp est b (fun _ => false)).flushed.flatten
        = packedEntries pp files
    ∧ (sortedFiles pp files).filter (fun f => decide (priorityKey pp f = k))
        = files.filter (fun f => decide (priorityKey pp f = k)) :=
  ⟨(flatten_trace project files pp est b).1,
   insertionSort_filter_key (priorityKey pp) k files⟩

/-- Claim C3: in every run, for every flushed chunk holding at least two
files, the running token total immediately before its last file was
appended — the cost of all entries but the last — was at most the budget
`tokens_per_file` (equivalently, a file is only ever appended to a
non-empty chunk whose accumulated cost still fits the budget). -/
theorem C3_budget_invariant (project : String) (files : List FileInput)
    (pp : List String) (est : String → Nat) (b : Nat) (wf : Nat → Bool)
    (ch : List (String × String))
    (hch : ch ∈ (flatten project files pp est b wf).flushed)
    (hlen : 2 ≤ ch.length) :
    sumTokens est ch.dropLast ≤ b := by
  have hInv := foldl_budgetInv b est wf (sortedFiles pp files) initState (budgetInv_init est b)
  exact (finishRun_flushed_budget project wf est b _ hInv ch hch).1 hlen

/-- Witness for C3: a fault-free run packing two 44-token files into one
chunk under a 1000-token budget; all but the last entry cost 44 ≤ 1000. -/
theorem C3_witness :
    sumTokens estimate_tokens_fallback ((wRunOk.flushed.headD []).dropLast) ≤ 1000 :=
  C3_budget_invariant "/p" [wFileA, wFileBad, wFileB] [] estimate_tokens_fallback 1000
    (fun _ => false) (wRunOk.flushed.headD []) (by decide) (by decide)

/-! ### Theorems: the import-rewriting pass -/

theorem takeWhile_all {α : Type} {p : α → Bool} : ∀ (l : List α), (∀ a ∈ l, p a = true) →
    l.takeWhile p = l
  | [], _ => rfl
  | a :: l, h => by
    have ha : p a = true := h a (by simp)
    simp [List.takeWhile_cons, ha, takeWhile_all l (fun b hb => h b (by simp [hb]))]

theorem takeWhile_append_all {α : Type} {p : α → Bool} :
    ∀ (l l' : List α), (∀ a ∈ l, p a = true) →
      (l ++ l').takeWhile p = l ++ l'.takeWhile p
  | [], _, _ => rfl
  | a :: l, l', h => by
    have ha : p a = true := h a (by simp)
    simp [List.takeWhile_cons, ha,
      takeWhile_append_all l l' (fun b hb => h b (by simp [hb]))]

theorem dropWhile_append_all {α : Type} {p : α → Bool} :
    ∀ (l l' : List α), (∀ a ∈ l, p a = true) →
      (l ++ l').dropWhile p = l'.dropWhile p
  | [], _, _ => rfl
  | a :: l, l', h => by
    have ha : p a = true := h a (by simp)
    simp [List.dropWhile_cons, ha,
      dropWhile_append_all l l' (fun b hb => h b (by simp [hb]))]

theorem litM_self_append : ∀ (p r : List Char), litM p (p ++ r) = some r
  | [], _ => rfl
  | c :: p, r => by simp [litM, litM_self_append p r]

theorem litM_eq_some_imp : ∀ (p s r : List Char), litM p s = some r → s = p ++ r
  | [], s, r, h => by simpa [litM] using h
  | _ :: _, [], _, h => by simp [litM] at h
  | p :: ps, c :: cs, r, h => by
    simp only [litM] at h
    by_cases hc : c = p
    · rw [if_pos hc] at h
      have := litM_eq_some_imp ps cs r h
      rw [List.cons_append, ← hc, this]
    · rw [if_neg hc] at h
      exact absurd h (by simp)

theorem litM_none_of_no_split (p s : List Char) (h : ∀ r, s ≠ p ++ r) : litM p s = none := by
  cases hl : litM p s with
  | none => rfl
  | some r => exact absurd (litM_eq_some_imp p s r hl) (h r)

theorem subImportsF_congr : ∀ (n m : Nat) (s : List Char),
    s.length ≤ n → s.length ≤ m → subImportsF n s = subImportsF m s
  | n, m, [], _, _ => by cases n <;> cases m <;> rfl
  | 0, _, c :: cs, hn, _ => by simp at hn
  | _ + 1, 0, c :: cs, _, hm => by simp at hm
  | n + 1, m + 1, c :: cs, hn, hm => by
    have hn' : cs.length ≤ n := by
      simp only [List.length_cons] at hn
      omega
    have hm' : cs.length ≤ m := by
      simp only [List.length_cons] at hm
      omega
    cases hmatch : matchImportAt (c :: cs) with
    | none =>
      simp only [subImportsF, hmatch]
      rw [subImportsF_congr n m cs hn' hm']
    | some r =>
      obtain ⟨k, g2⟩ := r
      simp only [subImportsF, hmatch]
      rw [subImportsF_congr n m ((c :: cs).drop (6 + k))
        (by simp only [List.length_drop, List.length_cons]; omega)
        (by simp only [List.length_drop, List.length_cons]; omega)]

theorem subImports_cons_none (c : Char) (cs : List Char)
    (h : matchImportAt (c :: cs) = none) :
    subImports (c :: cs) = c :: subImports cs := by
  show subImportsF (cs.length + 1) (c :: cs) = c :: subImportsF cs.length cs
  simp only [subImportsF, h]

theorem subImports_cons_some (c : Char) (cs : List Char) (k : Nat) (g2 : List Char)
    (h : matchImportAt (c :: cs) = some (k, g2)) :
    subImports (c :: cs)
      = (if g2.head? = some '.' then replacementFor ((c :: cs).take (6 + k)) g2
         else (c :: cs).take (6 + k)) ++ subImports ((c :: cs).drop (6 + k)) := by
  show subImportsF (cs.length + 1) (c :: cs) = _ ++ subImportsF ((c :: cs).drop (6 + k)).length _
  simp only [subImportsF, h]
  congr 1
  exact subImportsF_congr cs.length ((c :: cs).drop (6 + k)).length _
    (by simp only [List.length_drop, List.length_cons]; omega)
    (Nat.le_refl _)

theorem subImports_no_match : ∀ s : List Char, hasImportMatch s = false → subImports s = s
  | [], _ => rfl
  | c :: cs, h => by
    have h' := h
    simp only [hasImportMatch, Bool.or_eq_false_iff] at h'
    obtain ⟨h1, h2⟩ := h'
    have hm : matchImportAt (c :: cs) = none := by
      cases hx : matchImportAt (c :: cs) with
      | none => rfl
      | some r => rw [hx] at h1; simp at h1
    rw [subImports_cons_none c cs hm, subImports_no_match cs h2]

theorem isWsChar_of_quote (c : Char) (h : isQuoteChar c = true) : isWsChar c = false := by
  simp only [isQuoteChar, Bool.or_eq_true, decide_eq_true_eq] at h
  rcases h with rfl | rfl <;> rfl

/-- Evaluation of the pattern tail `\s+['"](.[^'"]*)(['"])` on an input of
the shape it accepts. -/
theorem wsQuoteSpec_eq (ws : List Char) (q c : Char) (run rest5 : List Char) (q2 : Char)
    (hws : ws ≠ []) (hwsall : ∀ a ∈ ws, isWsChar a = true)
    (hq : isQuoteChar q = true) (hc : ¬ (c = '\n'))
    (hrun : ∀ a ∈ run, isQuoteChar a = false) (hq2 : isQuoteChar q2 = true) :
    wsQuoteSpec (ws ++ q :: c :: (run ++ q2 :: rest5)) = some (c :: run, rest5) := by
  have hqws : isWsChar q = false := isWsChar_of_quote q hq
  have htake : (ws ++ q :: c :: (run ++ q2 :: rest5)).takeWhile isWsChar = ws := by
    rw [takeWhile_append_all ws _ hwsall, List.takeWhile_cons, hqws]
    simp
  have hdrop : (ws ++ q :: c :: (run ++ q2 :: rest5)).dropWhile isWsChar
      = q :: c :: (run ++ q2 :: rest5) := by
    rw [dropWhile_append_all ws _ hwsall, List.dropWhile_cons, hqws]
    simp
  have hrun2 : (run ++ q2 :: rest5).takeWhile (fun ch => !(isQuoteChar ch)) = run := by
    rw [takeWhile_append_all run _ (fun a ha => by simp [hrun a ha]), List.takeWhile_cons]
    simp [hq2]
  have hrest4 : (run ++ q2 :: rest5).dropWhile (fun ch => !(isQuoteChar ch))
      = q2 :: rest5 := by
    rw [dropWhile_append_all run _ (fun a ha => by simp [hrun a ha]), List.dropWhile_cons]
    simp [hq2]
  have hwse : ws.isEmpty = false := by
    cases ws with
    | nil => exact absurd rfl hws
    | cons a l => rfl
  unfold wsQuoteSpec
  rw [htake, hdrop]
  simp [hwse, hq, hc, hrun2, hrest4, hq2]

/-- The pattern tail attempt succeeds where the literal `from` of the
statement schema sits (after `.*` has consumed 3 characters). -/
theorem attemptFrom_schema (spec' : List Char)
    (hq : ∀ c ∈ spec', isQuoteChar c = false) :
    attemptFrom
        (' ' :: 'x' :: ' ' :: 'f' :: 'r' :: 'o' :: 'm' :: ' ' :: '\'' :: (('.' :: spec') ++ ['\''])) 3
      = some ('.' :: spec', []) := by
  have hdrop3 :
      (' ' :: 'x' :: ' ' :: 'f' :: 'r' :: 'o' :: 'm' :: ' ' :: '\'' :: (('.' :: spec') ++ ['\''])).drop 3
        = ['f', 'r', 'o', 'm'] ++ (' ' :: '\'' :: (('.' :: spec') ++ ['\''])) := rfl
  have hws : wsQuoteSpec ([' '] ++ '\'' :: '.' :: (spec' ++ '\'' :: []))
      = some ('.' :: spec', []) :=
    wsQuoteSpec_eq [' '] '\'' '.' spec' [] '\'' (by simp) (by intro a ha; simp at ha; rw [ha]; rfl)
      rfl (by decide) hq rfl
  simp only [attemptFrom, hdrop3, litM_self_append]
  simpa using hws

/-- Every attempt of the pattern tail after more than 3 characters of `.*`
fails on the statement schema: the literal `from` occurs nowhere later,
because the specifier contains no `from` and the only characters after it
are quotes. -/
theorem attemptFrom_fail_high (spec : List Char)
    (h3 : ¬ (['f', 'r', 'o', 'm'] <:+: spec)) :
    ∀ k, 4 ≤ k →
      attemptFrom (' ' :: 'x' :: ' ' :: 'f' :: 'r' :: 'o' :: 'm' :: ' ' :: '\'' :: (spec ++ ['\''])) k
        = none := by
  intro k hk
  have hlit : litM ['f', 'r', 'o', 'm']
      ((' ' :: 'x' :: ' ' :: 'f' :: 'r' :: 'o' :: 'm' :: ' ' :: '\'' :: (spec ++ ['\''])).drop k)
      = none := by
    rcases Nat.lt_or_ge k 9 with h9 | h9
    · interval_cases k
      · exact litM_none_of_no_split _ _ (fun r h => by injection h with h1 _; exact absurd h1 (by decide))
      · exact litM_none_of_no_split _ _ (fun r h => by injection h with h1 _; exact absurd h1 (by decide))
      · exact litM_none_of_no_split _ _ (fun r h => by injection h with h1 _; exact absurd h1 (by decide))
      · exact litM_none_of_no_split _ _ (fun r h => by injection h with h1 _; exact absurd h1 (by decide))
      · exact litM_none_of_no_split _ _ (fun r h => by injection h with h1 _; exact absurd h1 (by decide))
    · have hk9 :
          (' ' :: 'x' :: ' ' :: 'f' :: 'r' :: 'o' :: 'm' :: ' ' :: '\'' :: (spec ++ ['\''])).drop k
            = (spec ++ ['\'']).drop (k - 9) := by
        have hpre :
            (' ' :: 'x' :: ' ' :: 'f' :: 'r' :: 'o' :: 'm' :: ' ' :: '\'' :: (spec ++ ['\'']))
              = ([' ', 'x', ' ', 'f', 'r', 'o', 'm', ' ', '\''] : List Char) ++ (spec ++ ['\'']) := rfl
        rw [hpre, List.drop_append_eq_append_drop,
          List.drop_eq_nil_of_le (by simp; omega)]
        simp
      rw [hk9]
      rcases Nat.lt_or_ge spec.length (k - 9) with hi | hi
      · rw [List.drop_eq_nil_of_le (by simp; omega)]
        rfl
      · have hsplit : (spec ++ ['\'']).drop (k - 9) = spec.drop (k - 9) ++ ['\''] := by
          rw [List.drop_append_eq_append_drop, show k - 9 - spec.length = 0 from by omega]
          rfl
        rw [hsplit]
        refine litM_none_of_no_split _ _ (fun r hr => ?_)
        rcases Nat.lt_or_ge (spec.drop (k - 9)).length 4 with hlen | hlen
        · have hlens := congrArg List.length hr
          simp only [List.length_append, List.length_cons, List.length_nil] at hlens
          have hr0 : r = [] := List.length_eq_zero.mp (by omega)
          subst hr0
          have hlast := congrArg List.getLast? hr
          rw [List.getLast?_concat] at hlast
          simp at hlast
        · have htake4 : (spec.drop (k - 9)).take 4 = ['f', 'r', 'o', 'm'] := by
            have h4 := congrArg (List.take 4) hr
            rw [List.take_append_eq_append_take, List.take_append_eq_append_take] at h4
            simp only [show (4 : Nat) - (spec.drop (k - 9)).length = 0 from by omega] at h4
            simpa using h4
          refine h3 ⟨spec.take (k - 9), (spec.drop (k - 9)).drop 4, ?_⟩
          conv_rhs => rw [← List.take_append_drop (k - 9) spec]
          rw [← htake4, List.append_assoc, List.take_append_drop]
  simp only [attemptFrom, hlit]

/-- The greedy backtracking loop returns the first (largest-offset)
successful attempt: if the attempt at `k0` succeeds and all larger offsets
fail, starting anywhere at or above `k0` yields that success. -/
theorem dotStarLoop_first_success (s1 : List Char) (k0 : Nat) (r : List Char × List Char)
    (hk : attemptFrom s1 k0 = some r)
    (hfail : ∀ j, k0 < j → attemptFrom s1 j = none) :
    ∀ m, k0 ≤ m → dotStarLoop s1 m = some r
  | 0, h0 => by
    have hz : k0 = 0 := Nat.le_zero.mp h0
    subst hz
    simpa [dotStarLoop] using hk
  | m + 1, hm => by
    by_cases hle : k0 = m + 1
    · subst hle
      simp [dotStarLoop, hk]
    · have hf := hfail (m + 1) (by omega)
      simp only [dotStarLoop, hf]
      exact dotStarLoop_first_success s1 k0 r hk hfail m (by omega)

/-- Evaluation of the whole anchored pattern on the statement schema. -/
theorem matchImportAt_schema (spec' : List Char)
    (hq : ∀ c ∈ spec', isQuoteChar c = false)
    (hfrom : ¬ (['f', 'r', 'o', 'm'] <:+: ('.' :: spec'))) :
    matchImportAt
        ('i' :: 'm' :: 'p' :: 'o' :: 'r' :: 't' :: ' ' :: 'x' :: ' ' :: 'f' :: 'r' :: 'o' :: 'm'
          :: ' ' :: '\'' :: (('.' :: spec') ++ ['\'']))
      = some (spec'.length + 11, '.' :: spec') := by
  have hlit : litM ['i', 'm', 'p', 'o', 'r', 't']
      ('i' :: 'm' :: 'p' :: 'o' :: 'r' :: 't' :: ' ' :: 'x' :: ' ' :: 'f' :: 'r' :: 'o' :: 'm'
        :: ' ' :: '\'' :: (('.' :: spec') ++ ['\'']))
      = some (' ' :: 'x' :: ' ' :: 'f' :: 'r' :: 'o' :: 'm' :: ' ' :: '\''
          :: (('.' :: spec') ++ ['\''])) := rfl
  have htakepre :
      (' ' :: 'x' :: ' ' :: 'f' :: 'r' :: 'o' :: 'm' :: ' ' :: '\''
          :: (('.' :: spec') ++ ['\''])).takeWhile (fun c => !(c == '\n'))
        = ' ' :: 'x' :: ' ' :: 'f' :: 'r' :: 'o' :: 'm' :: ' ' :: '\'' :: '.'
          :: ((spec' ++ ['\'']).takeWhile (fun c => !(c == '\n'))) := rfl
  have hge : 3 ≤ ((' ' :: 'x' :: ' ' :: 'f' :: 'r' :: 'o' :: 'm' :: ' ' :: '\''
      :: (('.' :: spec') ++ ['\''])).takeWhile (fun c => !(c == '\n'))).length := by
    rw [htakepre]
    simp
  have hloop := dotStarLoop_first_success
    (' ' :: 'x' :: ' ' :: 'f' :: 'r' :: 'o' :: 'm' :: ' ' :: '\'' :: (('.' :: spec') ++ ['\'']))
    3 ('.' :: spec', []) (attemptFrom_schema spec' hq)
    (fun j hj => attemptFrom_fail_high ('.' :: spec') hfrom j (by omega))
    ((' ' :: 'x' :: ' ' :: 'f' :: 'r' :: 'o' :: 'm' :: ' ' :: '\''
        :: (('.' :: spec') ++ ['\''])).takeWhile (fun c => !(c == '\n'))).length hge
  simp only [matchImportAt, hlit, hloop]
  simp [List.length_append]

theorem subImports_nil : subImports [] = [] := rfl

/-- Claim C1 (amended): the cosmetic pass of `process_imports` is a
replacement, not an insertion.  Content in which the import pattern matches
nowhere is returned unchanged; a matched import statement whose module
specifier starts with `.` is replaced by exactly the two comment lines —
one echoing the original statement, one describing the flattened version —
so the original statement survives only inside the echo comment and is not
kept as a statement after the comments.  (Stated for statements of the
schema `import x from '<spec>'`, for every specifier starting with `.` that
contains no quote character and no occurrence of `from`.) -/
theorem C1_import_rewrite (s spec' : List Char)
    (hnomatch : hasImportMatch s = false)
    (hq : ∀ c ∈ spec', isQuoteChar c = false)
    (hfrom : ¬ (['f', 'r', 'o', 'm'] <:+: ('.' :: spec'))) :
    subImports s = s
    ∧ subImports (("import x from '").data ++ ('.' :: spec') ++ ['\''])
        = ("// Original import: import x from '").data ++ ('.' :: spec')
          ++ ("'\n// Flattened version would be: import from '").data
          ++ ('.' :: spec') ++ ['\''] := by
  refine ⟨subImports_no_match s hnomatch, ?_⟩
  have hmatch := matchImportAt_schema spec' hq hfrom
  have heq := subImports_cons_some 'i'
    ('m' :: 'p' :: 'o' :: 'r' :: 't' :: ' ' :: 'x' :: ' ' :: 'f' :: 'r' :: 'o' :: 'm' :: ' '
      :: '\'' :: (('.' :: spec') ++ ['\'']))
    (spec'.length + 11) ('.' :: spec') hmatch
  have hlen :
      ('i' :: 'm' :: 'p' :: 'o' :: 'r' :: 't' :: ' ' :: 'x' :: ' ' :: 'f' :: 'r' :: 'o' :: 'm'
        :: ' ' :: '\'' :: (('.' :: spec') ++ ['\''])).length = 6 + (spec'.length + 11) := by
    simp [List.length_append]
    omega
  have htake :
      ('i' :: 'm' :: 'p' :: 'o' :: 'r' :: 't' :: ' ' :: 'x' :: ' ' :: 'f' :: 'r' :: 'o' :: 'm'
        :: ' ' :: '\'' :: (('.' :: spec') ++ ['\''])).take (6 + (spec'.length + 11))
      = 'i' :: 'm' :: 'p' :: 'o' :: 'r' :: 't' :: ' ' :: 'x' :: ' ' :: 'f' :: 'r' :: 'o' :: 'm'
        :: ' ' :: '\'' :: (('.' :: spec') ++ ['\'']) := by
    rw [← hlen, List.take_length]
  have hdrop :
      ('i' :: 'm' :: 'p' :: 'o' :: 'r' :: 't' :: ' ' :: 'x' :: ' ' :: 'f' :: 'r' :: 'o' :: 'm'
        :: ' ' :: '\'' :: (('.' :: spec') ++ ['\''])).drop (6 + (spec'.length + 11)) = [] := by
    rw [← hlen, List.drop_length]
  show subImports
      ('i' :: 'm' :: 'p' :: 'o' :: 'r' :: 't' :: ' ' :: 'x' :: ' ' :: 'f' :: 'r' :: 'o' :: 'm'
        :: ' ' :: '\'' :: (('.' :: spec') ++ ['\''])) = _
  rw [heq, htake, hdrop, subImports_nil,
    if_pos (show ('.' :: spec').head? = some '.' from rfl)]
  simp only [replacementFor, List.append_assoc, List.cons_append, List.nil_append,
    List.append_nil]

/-- Counterexample to C1 as stated: on `import x from './a'` the pass does
produce the two comment lines, but the original import statement is not
present after them — it was replaced (it survives only inside the echo
comment), so the output is not the original content and does not end with
the original statement. -/
theorem C1_counterexample :
    process_imports "import x from './a'"
        = "// Original import: import x from './a'\n// Flattened version would be: import from './a'"
    ∧ ¬ (("import x from './a'").data <:+ (process_imports "import x from './a'").data)
    ∧ process_imports "import x from './a'" ≠ "import x from './a'" :=
  ⟨by decide, by decide, by decide⟩

/-- Witness for the amended C1: non-matching content is unchanged, and the
schema instance with specifier `./a` is rewritten to the two comments. -/
theorem C1_witness :
    subImports ("const a = 1;").data = ("const a = 1;").data
    ∧ subImports (("import x from '").data ++ ('.' :: ("/a").data) ++ ['\''])
        = ("// Original import: import x from '").data ++ ('.' :: ("/a").data)
          ++ ("'\n// Flattened version would be: import from '").data
          ++ ('.' :: ("/a").data) ++ ['\''] :=
  C1_import_rewrite ("const a = 1;").data ("/a").data (by decide) (by decide) (by decide)

/-! ### Theorems: chunk artifacts and the manifest -/

theorem foldl_strAppend_data (L : List String) :
    ∀ acc : String, (L.foldl (· ++ ·) acc).data = acc.data ++ (L.map String.data).flatten := by
  induction L with
  | nil => intro acc; simp
  | cons s L ih =>
    intro acc
    simp only [List.foldl_cons, ih (acc ++ s), String.data_append,
      List.map_cons, List.flatten_cons, List.append_assoc]

theorem strJoin_data (L : List String) :
    (String.join L).data = (L.map String.data).flatten := by
  have h := foldl_strAppend_data L ""
  simpa [String.join] using h

theorem mem_strJoin_inf (s : String) (L : List String) (h : s ∈ L) :
    s.data <:+: (String.join L).data := by
  rw [strJoin_data]
  obtain ⟨l1, l2, hsplit⟩ := List.append_of_mem (List.mem_map_of_mem String.data h)
  rw [hsplit]
  exact ⟨l1.flatten, l2.flatten, by simp⟩

theorem content_inf_chunk_text (chunk_file : String) (ch : List (String × String))
    (e : String × String) (he : e ∈ ch) :
    e.2.data <:+: (write_chunk_text chunk_file ch).data := by
  have h1 : e.2 ∈ ch.map (fun p => p.2) := List.mem_map_of_mem _ he
  obtain ⟨u, v, huv⟩ := mem_strJoin_inf _ _ h1
  refine ⟨("# Chunk: " ++ chunk_file ++ "\n\n## Contained Files:\n"
      ++ String.join (ch.map (fun p => "- " ++ p.1 ++ "\n"))
      ++ "\n" ++ equals80 ++ "\n\n").data ++ u, v, ?_⟩
  simp only [write_chunk_text, String.data_append, List.append_assoc]
  rw [← huv]
  simp [List.append_assoc]

theorem filter_fst_eq_singleton : ∀ (l : List (String × String)) (a b : String),
    (a, b) ∈ l → (l.map (fun e => e.1)).Nodup →
    l.filter (fun e => decide (e.1 = a)) = [(a, b)]
  | [], a, b, hm, _ => by simp at hm
  | (c, d) :: t, a, b, hm, hn => by
    rw [List.map_cons] at hn
    obtain ⟨hn1, hn2⟩ := List.nodup_cons.mp hn
    rcases List.mem_cons.mp hm with heq | hmt
    · injection heq with h1' h2'
      subst h1'
      subst h2'
      have hcnd : decide ((a, b).1 = a) = true := by simp
      rw [List.filter_cons, if_pos hcnd]
      have ht : t.filter (fun e => decide (e.1 = a)) = [] := by
        refine List.filter_eq_nil_iff.mpr ?_
        intro e het
        simp only [decide_eq_true_eq]
        intro hec
        exact hn1 (by rw [← hec]; exact List.mem_map_of_mem (fun e => e.1) het)
      rw [ht]
    · have hca : ¬ (decide ((c, d).1 = a) = true) := by
        simp only [decide_eq_true_eq]
        intro hce
        exact hn1 (by rw [hce]; exact List.mem_map_of_mem (fun e => e.1) hmt)
      rw [List.filter_cons, if_neg hca]
      exact filter_fst_eq_singleton t a b hmt hn2

theorem packed_relPaths (pp : List String) (files : List FileInput) :
    (packedEntries pp files).map (fun e => e.1)
      = ((sortedFiles pp files).filter (fun f => f.content.isSome)).map
          (fun f => f.relPath) := by
  simp [packedEntries, List.map_map]

theorem packed_relPaths_nodup (pp : List String) (files : List FileInput)
    (hn : (files.map (fun f => f.relPath)).Nodup) :
    ((packedEntries pp files).map (fun e => e.1)).Nodup := by
  rw [packed_relPaths]
  have hperm : List.Perm (sortedFiles pp files) files := List.perm_insertionSort _ files
  have hnodup_sorted : ((sortedFiles pp files).map (fun f => f.relPath)).Nodup :=
    ((hperm.map (fun f => f.relPath)).nodup_iff).mpr hn
  exact hnodup_sorted.sublist
    (List.Sublist.map (fun f : FileInput => f.relPath)
      (List.filter_sublist (sortedFiles pp files)))

/-- Claim C4: in a fault-free run, every selected file that was read
successfully appears — with its full annotated content, as a single
contiguous entry — in exactly one flushed chunk; its content is an infix of
that chunk's written artifact; and when its cost alone exceeds the budget,
its chunk contains nothing else. -/
theorem C4_no_split (project : String) (files : List FileInput) (pp : List String)
    (est : String → Nat) (b : Nat)
    (hn : (files.map (fun f => f.relPath)).Nodup)
    (f : FileInput) (hf : f ∈ files) (hs : f.content.isSome = true) :
    ((flatten project files pp est b (fun _ => false)).flushed.flatten).filter
        (fun e => decide (e.1 = f.relPath)) = [(f.relPath, fileContentOf f)]
    ∧ (∃ d ∈ (flatten project files pp est b (fun _ => false)).disk,
        (fileContentOf f).data <:+: d.2.data)
    ∧ (b < est (fileContentOf f) →
        ∃ ch ∈ (flatten project files pp est b (fun _ => false)).flushed,
          ch = [(f.relPath, fileContentOf f)]) := by
  have hjoin := (flatten_trace project files pp est b).1
  have hperm : List.Perm (sortedFiles pp files) files := List.perm_insertionSort _ files
  have hfs : f ∈ (sortedFiles pp files).filter (fun f => f.content.isSome) :=
    List.mem_filter.mpr ⟨hperm.mem_iff.mpr hf, hs⟩
  have hentry : (f.relPath, fileContentOf f) ∈ packedEntries pp files :=
    List.mem_map_of_mem _ hfs
  have hnodup := packed_relPaths_nodup pp files hn
  refine ⟨?_, ?_, ?_⟩
  · rw [hjoin]
    exact filter_fst_eq_singleton _ _ _ hentry hnodup
  · have hmem : (f.relPath, fileContentOf f)
        ∈ (flatten project files pp est b (fun _ => false)).flushed.flatten := by
      rw [hjoin]; exact hentry
    obtain ⟨ch, hch, hin⟩ := List.mem_flatten.mp hmem
    obtain ⟨d, hd, hdw⟩ :=
      forall₂_exists_left (flatten_diskInv project files pp est b (fun _ => false)) ch hch
    refine ⟨d, hd, ?_⟩
    rw [hdw]
    exact content_inf_chunk_text d.1 ch _ hin
  · intro hov
    have hmem : (f.relPath, fileContentOf f)
        ∈ (flatten project files pp est b (fun _ => false)).flushed.flatten := by
      rw [hjoin]; exact hentry
    obtain ⟨ch, hch, hin⟩ := List.mem_flatten.mp hmem
    have hb := finishRun_flushed_budget project (fun _ => false) est b _
      (foldl_budgetInv b est (fun _ => false) (sortedFiles pp files) initState
        (budgetInv_init est b))
    have := (hb ch hch).2 _ hin hov
    exact ⟨ch, hch, this⟩

/-- Witness for C4: a run of one 44-token file under a 10-token budget — the
file is still packed, alone in its chunk. -/
theorem C4_witness :
    ∃ ch ∈ wRunBig.flushed, ch = [("A.ts", fileContentOf wFileA)] :=
  (C4_no_split "/p" [wFileA] [] estimate_tokens_fallback 10 (by decide)
    wFileA (by decide) (by decide)).2.2 (by decide)

/-- Claim C5: in a fault-free run, the manifest exists; the union of the
files listed across its chunk entries is exactly the set of selected files
that were read successfully (read failures are absent and the run still
completes), each appearing exactly once; each entry's file count is the
length of its file list; and `total_chunks` is the number of flushed
chunks. -/
theorem C5_manifest_complete (project : String) (files : List FileInput)
    (pp : List String) (est : String → Nat) (b : Nat)
    (hn : (files.map (fun f => f.relPath)).Nodup) :
    ∃ m, (flatten project files pp est b (fun _ => false)).manifest = some m
      ∧ (∀ p : String, p ∈ (m.chunks.map (fun e => e.2.1)).flatten
            ↔ ∃ f ∈ files, f.relPath = p ∧ f.content.isSome = true)
      ∧ ((m.chunks.map (fun e => e.2.1)).flatten).Nodup
      ∧ (∀ e ∈ m.chunks, e.2.2 = e.2.1.length)
      ∧ m.total_chunks
          = (flatten project files pp est b (fun _ => false)).flushed.length := by
  obtain ⟨hjoin, hacc, hman⟩ := flatten_trace project files pp est b
  refine ⟨_, hman, ?_, ?_, ?_, ?_⟩
  all_goals
    have hchunks : (create_chunk_manifest project
          (flatten project files pp est b (fun _ => false)).chunksAcc).chunks.map
            (fun e => e.2.1)
        = (flatten project files pp est b (fun _ => false)).chunksAcc.map (fun e => e.2) := by
      simp [create_chunk_manifest, List.map_map]
  · have hflat : ((create_chunk_manifest project
          (flatten project files pp est b (fun _ => false)).chunksAcc).chunks.map
            (fun e => e.2.1)).flatten
        = (packedEntries pp files).map (fun e => e.1) := by
      rw [hchunks, hacc, ← List.map_flatten, hjoin]
    intro p
    rw [hflat, packed_relPaths]
    constructor
    · intro hp
      obtain ⟨g, hg, rfl⟩ := List.mem_map.mp hp
      have hg' := List.mem_filter.mp hg
      exact ⟨g, (List.perm_insertionSort _ files).mem_iff.mp hg'.1, rfl, hg'.2⟩
    · rintro ⟨g, hg, rfl, hgs⟩
      exact List.mem_map_of_mem _
        (List.mem_filter.mpr ⟨(List.perm_insertionSort _ files).mem_iff.mpr hg, hgs⟩)
  · have hflat : ((create_chunk_manifest project
          (flatten project files pp est b (fun _ => false)).chunksAcc).chunks.map
            (fun e => e.2.1)).flatten
        = (packedEntries pp files).map (fun e => e.1) := by
      rw [hchunks, hacc, ← List.map_flatten, hjoin]
    rw [hflat]
    exact packed_relPaths_nodup pp files hn
  · intro e he
    obtain ⟨a, _, rfl⟩ := List.mem_map.mp he
    rfl
  · have hlen : (flatten project files pp est b (fun _ => false)).chunksAcc.length
        = (flatten project files pp est b (fun _ => false)).flushed.length := by
      have := congrArg List.length hacc
      simpa using this
    simpa [create_chunk_manifest] using hlen

/-- Witness for C5: the fault-free two-file run with one unreadable file;
its manifest lists exactly `A.ts` and `B.ts`, once each. -/
theorem C5_witness :
    ∃ m, wRunOk.manifest = some m
      ∧ (∀ p : String, p ∈ (m.chunks.map (fun e => e.2.1)).flatten
            ↔ ∃ f ∈ [wFileA, wFileBad, wFileB], f.relPath = p ∧ f.content.isSome = true)
      ∧ ((m.chunks.map (fun e => e.2.1)).flatten).Nodup
      ∧ (∀ e ∈ m.chunks, e.2.2 = e.2.1.length)
      ∧ m.total_chunks = wRunOk.flushed.length :=
  C5_manifest_complete "/p" [wFileA, wFileBad, wFileB] [] estimate_tokens_fallback 1000
    (by decide)

end TsFlattener
